import Mathlib

/-
Verification of the text-parsing and normalisation core of the
diff-visualizer extension: commit-message reconstruction, renamed-path
rewriting, diff-entry classification, file-tree building and the
file-content fallback.  JavaScript strings are modelled as lists of
characters; the JS string primitives used by the source (split, trim,
includes, startsWith, join) are embedded as executable functions below.
-/

namespace DiffVisualizer

/-- JS strings are modelled as lists of characters.  Lengths agree with
JS `.length` on the inputs considered here (all characters are in the
basic multilingual plane). -/
abbrev JStr := List Char

/-- Models `String.prototype.startsWith` / prefix tests: `isPre pat s`
is true when `pat` is a prefix of `s`. -/
def isPre : JStr → JStr → Bool
  | [], _ => true
  | _ :: _, [] => false
  | a :: as, b :: bs => if a = b then isPre as bs else false

/-- Models `String.prototype.includes`: substring containment. -/
def jsIncludes (pat : JStr) : JStr → Bool
  | [] => pat.isEmpty
  | c :: cs => isPre pat (c :: cs) || jsIncludes pat cs

/-- Models `String.prototype.trim`.  Lean's `Char.isWhitespace` covers
the whitespace characters occurring in the adapter's inputs. -/
def jsTrim (s : JStr) : JStr :=
  ((s.dropWhile Char.isWhitespace).reverse.dropWhile Char.isWhitespace).reverse

/-- Worker for `jsSplit`: scans the string left to right, consuming one
character per step.  `skip` counts separator characters still to be
consumed after a match (so the recursion stays structural). -/
def splitSt (sep : JStr) : JStr → Nat → JStr → List JStr
  | [], _, acc => [acc.reverse]
  | _ :: cs, Nat.succ k, acc => splitSt sep cs k acc
  | c :: cs, 0, acc =>
    if isPre sep (c :: cs) then acc.reverse :: splitSt sep cs (sep.length - 1) []
    else splitSt sep cs 0 (c :: acc)

/-- Models `String.prototype.split` with a non-empty separator string:
leftmost, non-overlapping occurrences. -/
def jsSplit (sep : JStr) (s : JStr) : List JStr :=
  match sep with
  | [] => [s]
  | _ :: _ => splitSt sep s 0 []

/-- Models `Array.prototype.join`. -/
def jsJoin (sep : JStr) : List JStr → JStr
  | [] => []
  | [x] => x
  | x :: y :: rest => x ++ sep ++ jsJoin sep (y :: rest)

/-! Commit records, from `BranchDiffViewProvider.ts` / `gitService.ts`. -/

/-- CommitInfo record from the source (`hash`, `shortHash`, `message`,
`author`, `date`, `parents`). -/
structure CommitInfo where
  hash : JStr
  shortHash : JStr
  message : JStr
  author : JStr
  date : JStr
  parents : List JStr
deriving DecidableEq

/-- Embeds `GitService.shouldFormatAsList` of
`BranchDiffViewProvider.ts` (lines 509-526). -/
def shouldFormatAsList (parts : List JStr) : Bool :=
  if parts.length < 2 then false
  else
    let firstPart := jsTrim (parts.headD [])
    let restParts := parts.drop 1
    if 100 < firstPart.length then false
    else if !(restParts.all fun part => decide (5 < (jsTrim part).length)) then false
    else restParts.all fun part =>
      let trimmed := jsTrim part
      decide (10 < trimmed.length) &&
        (jsIncludes ['，'] trimmed || jsIncludes ['。'] trimmed ||
          jsIncludes ['、'] trimmed || decide (20 < trimmed.length))

/-- Splitting on the list delimiter and dropping blank segments, as in
`body.split(' - ').filter(part => part.trim())`. -/
def splitParts (s : JStr) : List JStr :=
  (jsSplit (" - ").toList s).filter fun part => !(jsTrim part).isEmpty

/-- One segment of a reformatted list: trimmed, and prefixed with the
bullet marker unless it already starts with a dash. -/
def bulletize (part : JStr) : JStr :=
  let trimmed := jsTrim part
  if isPre ['-'] trimmed then trimmed else '-' :: ' ' :: trimmed

/-- Embeds the message-reconstruction block of
`GitService.getCommitHistory` in `BranchDiffViewProvider.ts`
(lines 553-584), including the final `message.trim()` applied when the
commit record is pushed. -/
def formatMessage (subject body : JStr) : JStr :=
  let message :=
    if body.isEmpty then
      let subjectParts := splitParts subject
      if decide (1 < subjectParts.length) && shouldFormatAsList subjectParts then
        subjectParts.headD [] ++ '\n' :: jsJoin ['\n'] ((subjectParts.drop 1).map bulletize)
      else subject
    else
      if jsIncludes ['\n'] body then subject ++ '\n' :: body
      else
        let bodyParts := splitParts body
        if decide (1 < bodyParts.length) && shouldFormatAsList bodyParts then
          subject ++ '\n' :: jsJoin ['\n'] (bodyParts.map bulletize)
        else subject ++ '\n' :: body
  jsTrim message

/-- Embeds the per-block parsing of `GitService.getCommitHistory` in
`BranchDiffViewProvider.ts` (lines 543-594).  The `formatDate` helper
wraps the host's `Date` API and is passed in abstractly as `fmtDate`. -/
def parseCommitBlock (fmtDate : JStr → JStr) (block : JStr) : Option CommitInfo :=
  let lines := jsSplit ['\n'] (jsTrim block)
  if lines.length < 4 then none
  else
    let hash := jsTrim (lines.headD [])
    let author := jsTrim (lines.getD 1 [])
    let date := jsTrim (lines.getD 2 [])
    let subject := jsTrim (lines.getD 3 [])
    let body := jsTrim (jsJoin ['\n'] (lines.drop 4))
    some { hash := hash, shortHash := hash.take 7, message := formatMessage subject body,
           author := author, date := fmtDate date, parents := [] }

/-- Separator emitted by the `--format` argument of the provider's log
invocation. -/
def sepToken : JStr := ("---COMMIT-SEPARATOR---").toList

/-- Embeds `GitService.getCommitHistory` of `BranchDiffViewProvider.ts`
(lines 528-597) as a function of the raw log output: empty or
whitespace-only output yields no commits, otherwise the output is split
into blocks and blocks with fewer than four lines are skipped. -/
def getCommitHistoryOfLog (fmtDate : JStr → JStr) (raw : JStr) : List CommitInfo :=
  if (jsTrim raw).isEmpty then []
  else (jsSplit sepToken (jsTrim raw)).filterMap (parseCommitBlock fmtDate)

/-- Embeds `GitService.getCommitHistory` of `gitService.ts`
(lines 99-123), which uses a pipe-separated single-line format.  JS
destructuring yields `undefined` for fields missing from a short line;
those are modelled as empty strings. -/
def getCommitHistorySvc (fmtDate : JStr → JStr) (raw : JStr) : List CommitInfo :=
  if (jsTrim raw).isEmpty then []
  else (jsSplit ['\n'] (jsTrim raw)).map fun line =>
    let fields := jsSplit ['|'] line
    let hash := fields.headD []
    { hash := hash, shortHash := hash.take 7,
      message := jsJoin ['|'] (fields.drop 3),
      author := fields.getD 1 [], date := fmtDate (fields.getD 2 []), parents := [] }

/-! Diff-entry classification, from `GitService.getDiffFiles` and
`GitService.parseRenamedPath` (identical in `gitService.ts` lines 62-97
and `BranchDiffViewProvider.ts` lines 471-507). -/

/-- Status of a changed file. -/
inductive FileStatus where
  | added
  | modified
  | deleted
  | renamed
deriving DecidableEq

/-- One entry of the `simple-git` diff summary.  Text entries carry
insertion and deletion counts; binary entries carry neither, which the
source probes with `'insertions' in file`, modelled here by `Option`. -/
structure RawDiffEntry where
  file : JStr
  insertions : Option Nat
  deletions : Option Nat
deriving DecidableEq

/-- The `simple-git` diff summary handed to `getDiffFiles`: the parsed
entries plus the library's own aggregate counters. -/
structure RawDiffSummary where
  files : List RawDiffEntry
  insertions : Nat
  deletions : Nat
deriving DecidableEq

/-- DiffFile record from the source. -/
structure DiffFile where
  path : JStr
  additions : Nat
  deletions : Nat
  status : FileStatus
deriving DecidableEq

/-- DiffResult record from the source. -/
structure DiffResult where
  files : List DiffFile
  totalAdditions : Nat
  totalDeletions : Nat
deriving DecidableEq

/-- The string ` => ` appearing inside rename notation. -/
def arrowToken : JStr := (" => ").toList

/-- The rename test of `getDiffFiles`:
`filePath.includes('\x7b') && filePath.includes(' => ') && filePath.includes('\x7d')`. -/
def isRenamedPath (fp : JStr) : Bool :=
  jsIncludes ['\x7b'] fp && jsIncludes arrowToken fp && jsIncludes ['\x7d'] fp

/-- Splits a piece at the first opening brace that still has ` => `
after it within the piece, returning the text before the brace and the
text after it.  This mirrors where the regex
`\x7b([^\x7d]*) => ([^\x7d]*)\x7d` can start a match inside a
brace-free-on-the-right piece. -/
def braceArrowSplit : JStr → Option (JStr × JStr)
  | [] => none
  | c :: cs =>
    if c = '\x7b' ∧ jsIncludes arrowToken cs = true then some ([], cs)
    else match braceArrowSplit cs with
      | some (pre, rest) => some (c :: pre, rest)
      | none => none

/-- Suffix of `s` after the last occurrence of `pat` (occurrences may
overlap; the rightmost starting position wins, matching the greedy
first capture group of the rename regex). -/
def afterLastSub (pat : JStr) : JStr → Option JStr
  | [] => none
  | c :: cs =>
    match afterLastSub pat cs with
    | some r => some r
    | none => if isPre pat (c :: cs) then some ((c :: cs).drop pat.length) else none

/-- The second capture group of the rename regex: text after the last
` => ` of the matched interior. -/
def afterLastArrow (s : JStr) : JStr := (afterLastSub arrowToken s).getD s

/-- Reassembles the pieces obtained by splitting on closing braces:
a piece containing a qualifying opening brace is a regex match and is
replaced by its text before the brace followed by the post-arrow part;
otherwise the piece and its closing brace are kept verbatim.  The last
piece (not followed by a closing brace) is always kept. -/
def joinPieces (p : JStr) : List JStr → JStr
  | [] => p
  | q :: qs =>
    (match braceArrowSplit p with
     | some (pre, rest) => pre ++ afterLastArrow rest
     | none => p ++ ['\x7d']) ++ joinPieces q qs

/-- Embeds `GitService.parseRenamedPath`: the global regex replacement
`filePath.replace(/\x7b([^\x7d]*) => ([^\x7d]*)\x7d/g, (_, o, n) => n)`. -/
def parseRenamedPath (fp : JStr) : JStr :=
  match jsSplit ['\x7d'] fp with
  | [] => fp
  | p :: ps => joinPieces p ps

/-- Embeds the per-entry classification of `GitService.getDiffFiles`
(lines 65-85): rename detection first, then the insertion/deletion
heuristics, default `modified`. -/
def classifyFile (e : RawDiffEntry) : DiffFile :=
  let isRenamed := isRenamedPath e.file
  let filePath := if isRenamed then parseRenamedPath e.file else e.file
  let status : FileStatus :=
    if isRenamed then FileStatus.renamed
    else if (e.insertions.any fun i => decide (0 < i)) &&
            (e.deletions.any fun d => decide (d = 0)) then FileStatus.added
    else if (e.deletions.any fun d => decide (0 < d)) &&
            (e.insertions.any fun i => decide (i = 0)) then FileStatus.deleted
    else FileStatus.modified
  { path := filePath, additions := e.insertions.getD 0,
    deletions := e.deletions.getD 0, status := status }

/-- Embeds `GitService.getDiffFiles` (lines 62-92) as a function of the
`simple-git` summary: classifies every entry and copies the summary's
aggregate counters into the result. -/
def getDiffFiles (s : RawDiffSummary) : DiffResult :=
  { files := s.files.map classifyFile,
    totalAdditions := s.insertions,
    totalDeletions := s.deletions }

/-! File content, from `GitService.getFileContent` (identical in both
files): a `git show` call wrapped in try/catch. -/

/-- Failure modes of the underlying `git show` invocation. -/
inductive GitShowError where
  | pathNotFound
  | badRevision
  | toolFailure
deriving DecidableEq

/-- Embeds `GitService.getFileContent` (lines 125-132): the outcome of
the external `git show` call is a value or an exception; the catch-all
turns every exception into the empty string. -/
def getFileContent (showResult : Except GitShowError JStr) : JStr :=
  match showResult with
  | Except.ok content => content
  | Except.error _ => []

/-! File tree, from `buildFileTree` and `renderTreeNode` in
`src/webview/main.js`. -/

/-- A node of the file tree.  A JS object used as a string-keyed map is
modelled as an insertion-ordered association list. -/
inductive TreeNode where
  | file (data : DiffFile)
  | folder (children : List (JStr × TreeNode))

/-- Lookup in an insertion-ordered JS object. -/
def omapGet (m : List (JStr × TreeNode)) (k : JStr) : Option TreeNode :=
  match m with
  | [] => none
  | (k', v) :: rest => if k' = k then some v else omapGet rest k

/-- Assignment `m[k] = v` on an insertion-ordered JS object: an existing
key keeps its position, a new key is appended. -/
def omapSet (m : List (JStr × TreeNode)) (k : JStr) (v : TreeNode) : List (JStr × TreeNode) :=
  match m with
  | [] => [(k, v)]
  | (k', v') :: rest => if k' = k then (k', v) :: rest else (k', v') :: omapSet rest k v

/-- Embeds the inner `parts.forEach` of `buildFileTree`: walks the path
segments, creating folder nodes for missing intermediate segments and a
file node for the last segment.  An interior segment already mapped to a
file node is a runtime error in the JS (reading `.children` of a node
without one); no path sequence describing a consistent tree reaches that
case, and it is modelled as starting from empty children. -/
def insertPath (f : DiffFile) : List JStr → List (JStr × TreeNode) → List (JStr × TreeNode)
  | [], t => t
  | [part], t => omapSet t part (TreeNode.file f)
  | part :: nxt :: rest, t =>
    let sub := match omapGet t part with
      | some (TreeNode.folder cs) => cs
      | _ => []
    omapSet t part (TreeNode.folder (insertPath f (nxt :: rest) sub))

/-- Embeds `buildFileTree` of `src/webview/main.js` (lines 272-292). -/
def buildFileTree (files : List DiffFile) : List (JStr × TreeNode) :=
  files.foldl (fun t f => insertPath f (jsSplit ['/'] f.path) t) []

/-- Insertion into a list sorted by the boolean relation `le`. -/
def insertLE {α : Type} (le : α → α → Bool) (x : α) : List α → List α
  | [] => [x]
  | y :: ys => if le x y then x :: y :: ys else y :: insertLE le x ys

/-- Stable insertion sort by the boolean relation `le`; models the
sorted order produced by `Array.prototype.sort` with a comparator. -/
def sortByLE {α : Type} (le : α → α → Bool) : List α → List α
  | [] => []
  | x :: xs => insertLE le x (sortByLE le xs)

/-- Code-point order on strings.  Models `String.prototype.localeCompare`
for the file names considered here (default-locale collation agrees with
code-point order on lowercase ASCII names). -/
def lexLE : JStr → JStr → Bool
  | [], _ => true
  | _ :: _, [] => false
  | a :: as, b :: bs => if a = b then lexLE as bs else decide (a < b)

/-- Folder test used by the comparator of `renderTreeNode`. -/
def isFolderNode : TreeNode → Bool
  | TreeNode.folder _ => true
  | TreeNode.file _ => false

/-- The comparator of `renderTreeNode` (lines 336-343 of `main.js`) as a
boolean order: folders sort before files, names otherwise compare with
`cmp`. -/
def nodeLE (cmp : JStr → JStr → Bool) (a b : JStr × TreeNode) : Bool :=
  if isFolderNode a.2 = isFolderNode b.2 then cmp a.1 b.1
  else isFolderNode a.2

mutual
/-- The observable tree produced by `renderTreeNode`: children sorted at
every level by the folders-first comparator. -/
def sortNode (cmp : JStr → JStr → Bool) : TreeNode → TreeNode
  | TreeNode.file d => TreeNode.file d
  | TreeNode.folder cs => TreeNode.folder (sortByLE (nodeLE cmp) (sortChildrenList cmp cs))

/-- Applies `sortNode` beneath every child of a children list. -/
def sortChildrenList (cmp : JStr → JStr → Bool) : List (JStr × TreeNode) → List (JStr × TreeNode)
  | [] => []
  | (k, t) :: rest => (k, sortNode cmp t) :: sortChildrenList cmp rest
end

/-- The tree a diff renders: `buildFileTree` followed by the recursive
sorted traversal of `renderTreeNode`. -/
def renderedTree (cmp : JStr → JStr → Bool) (files : List DiffFile) : TreeNode :=
  sortNode cmp (TreeNode.folder (buildFileTree files))

end DiffVisualizer

namespace DiffVisualizer

/-- C9: `getFileContent` returns the full text of the path at the
revision when the underlying `git show` succeeds, and the empty string
(not an error) when the path did not exist at that revision. -/
theorem C9_getFileContent_ok_and_missing (content : JStr) :
    getFileContent (Except.ok content) = content ∧
    getFileContent (Except.error GitShowError.pathNotFound) = [] :=
  ⟨rfl, rfl⟩

/-- C10: `getFileContent` is total over the outcome of the underlying
tool: every failure of the invocation, whatever its kind, yields the
empty string; no exception propagates (the function is total by type). -/
theorem C10_getFileContent_total_on_errors (e : GitShowError) :
    getFileContent (Except.error e) = [] :=
  rfl

/-- C7: when the underlying log output is empty or whitespace-only (in
particular when base equals target), both commit-history readers return
the empty commit sequence rather than failing. -/
theorem C7_empty_log_yields_no_commits (fmtA fmtB : JStr → JStr) (raw : JStr)
    (h : jsTrim raw = []) :
    getCommitHistoryOfLog fmtA raw = [] ∧ getCommitHistorySvc fmtB raw = [] := by
  unfold getCommitHistoryOfLog getCommitHistorySvc
  rw [h]
  simp

/-- Witness for C7 at the whitespace-only log output consisting of one
space. -/
theorem C7_empty_log_yields_no_commits_witness :
    jsTrim [' '] = [] ∧
      (getCommitHistoryOfLog id [' '] = [] ∧ getCommitHistorySvc id [' '] = []) :=
  ⟨by decide, C7_empty_log_yields_no_commits id id [' '] (by decide)⟩

/-- C4: an entry without the rename marker and with both counters
present is classified added exactly when insertions are positive and
deletions zero, deleted exactly when deletions are positive and
insertions zero, and modified in every other case. -/
theorem C4_insertion_deletion_heuristics (e : RawDiffEntry) (i d : Nat)
    (hi : e.insertions = some i) (hd : e.deletions = some d)
    (hren : isRenamedPath e.file = false) :
    (classifyFile e).status =
      (if 0 < i ∧ d = 0 then FileStatus.added
       else if 0 < d ∧ i = 0 then FileStatus.deleted
       else FileStatus.modified) := by
  unfold classifyFile
  rw [hi, hd, hren]
  simp only [Option.any_some, Bool.false_eq_true, if_false, Bool.and_eq_true,
    decide_eq_true_eq]

/-- Witness for C4 at a concrete entry with two insertions and two
deletions, classified modified. -/
theorem C4_insertion_deletion_heuristics_witness :
    (⟨("a.txt").toList, some 2, some 2⟩ : RawDiffEntry).insertions = some 2 ∧
    (⟨("a.txt").toList, some 2, some 2⟩ : RawDiffEntry).deletions = some 2 ∧
    isRenamedPath (⟨("a.txt").toList, some 2, some 2⟩ : RawDiffEntry).file = false ∧
    (classifyFile ⟨("a.txt").toList, some 2, some 2⟩).status =
      (if 0 < 2 ∧ 2 = 0 then FileStatus.added
       else if 0 < 2 ∧ 2 = 0 then FileStatus.deleted
       else FileStatus.modified) :=
  ⟨rfl, rfl, by decide,
    C4_insertion_deletion_heuristics ⟨("a.txt").toList, some 2, some 2⟩ 2 2 rfl rfl (by decide)⟩

/-- C5: under the accumulation invariant of the `simple-git` parser
(the summary counters are the sums of the per-entry counters), the
totals reported by `getDiffFiles` equal the sums of the per-file
additions and deletions it outputs. -/
theorem C5_totals_are_sums (s : RawDiffSummary)
    (hins : s.insertions = (s.files.map fun e => e.insertions.getD 0).sum)
    (hdel : s.deletions = (s.files.map fun e => e.deletions.getD 0).sum) :
    (getDiffFiles s).totalAdditions = ((getDiffFiles s).files.map DiffFile.additions).sum ∧
    (getDiffFiles s).totalDeletions = ((getDiffFiles s).files.map DiffFile.deletions).sum := by
  unfold getDiffFiles
  simp only [List.map_map]
  exact ⟨hins, hdel⟩

/-- Witness for C5 at a concrete two-entry summary. -/
theorem C5_totals_are_sums_witness :
    (⟨[⟨("a").toList, some 2, some 0⟩, ⟨("b").toList, none, some 3⟩], 2, 3⟩ :
        RawDiffSummary).insertions =
      (([⟨("a").toList, some 2, some 0⟩, ⟨("b").toList, none, some 3⟩] :
          List RawDiffEntry).map fun e => e.insertions.getD 0).sum ∧
    (⟨[⟨("a").toList, some 2, some 0⟩, ⟨("b").toList, none, some 3⟩], 2, 3⟩ :
        RawDiffSummary).deletions =
      (([⟨("a").toList, some 2, some 0⟩, ⟨("b").toList, none, some 3⟩] :
          List RawDiffEntry).map fun e => e.deletions.getD 0).sum ∧
    ((getDiffFiles ⟨[⟨("a").toList, some 2, some 0⟩, ⟨("b").toList, none, some 3⟩], 2, 3⟩).totalAdditions =
      ((getDiffFiles ⟨[⟨("a").toList, some 2, some 0⟩, ⟨("b").toList, none, some 3⟩], 2, 3⟩).files.map
        DiffFile.additions).sum ∧
     (getDiffFiles ⟨[⟨("a").toList, some 2, some 0⟩, ⟨("b").toList, none, some 3⟩], 2, 3⟩).totalDeletions =
      ((getDiffFiles ⟨[⟨("a").toList, some 2, some 0⟩, ⟨("b").toList, none, some 3⟩], 2, 3⟩).files.map
        DiffFile.deletions).sum) :=
  ⟨by decide, by decide,
    C5_totals_are_sums ⟨[⟨("a").toList, some 2, some 0⟩, ⟨("b").toList, none, some 3⟩], 2, 3⟩
      (by decide) (by decide)⟩

end DiffVisualizer

namespace DiffVisualizer

/-- C2 counterexample: for the commit with subject
`Fix bug - Update docs - Add tests` and no body, `getCommitHistory`
leaves the message untouched; it does not produce the bulleted form the
claim predicts, because the list heuristic rejects the short segments. -/
theorem C2_counterexample_heuristic_rejects :
    (getCommitHistoryOfLog id
        (("cafebabe1234\nBob\n2024-01-02T03:04:05Z\nFix bug - Update docs - Add tests\n---COMMIT-SEPARATOR---").toList)).map
      CommitInfo.message = [("Fix bug - Update docs - Add tests").toList] ∧
    ("Fix bug - Update docs - Add tests").toList ≠
      ("Fix bug\n- Update docs\n- Add tests").toList := by
  decide

/-- C2 amended: the heuristic rejects this subject (its non-title
segments are 11 and 9 characters long, contain no full-stop-equivalent
punctuation and do not exceed 20 characters), so the reconstructed
message is the subject verbatim. -/
theorem C2_amended_subject_kept_verbatim :
    shouldFormatAsList (splitParts (("Fix bug - Update docs - Add tests").toList)) = false ∧
    (getCommitHistoryOfLog id
        (("ba5eba11c0de\nCarol\n2024-02-03T04:05:06Z\nFix bug - Update docs - Add tests\n---COMMIT-SEPARATOR---").toList)).map
      CommitInfo.message = [("Fix bug - Update docs - Add tests").toList] := by
  decide

/-- C1 counterexample: for a commit whose single-line body passes the
list heuristic, `getCommitHistory` prefixes EVERY segment of the body
with the bullet marker, including the first one, which the claim says
stays unprefixed as the title. -/
theorem C1_counterexample_first_segment_bulleted :
    (getCommitHistoryOfLog id
        (("deadbeefcafe\nAlice\n2024-05-05T10:00:00+08:00\nRelease\nImprove the parser performance significantly - Fix the rename detection logic properly\n---COMMIT-SEPARATOR---").toList)).map
      CommitInfo.message =
      [("Release\n- Improve the parser performance significantly\n- Fix the rename detection logic properly").toList] ∧
    ("Release\n- Improve the parser performance significantly\n- Fix the rename detection logic properly").toList ≠
      ("Release\nImprove the parser performance significantly\n- Fix the rename detection logic properly").toList := by
  decide

end DiffVisualizer

namespace DiffVisualizer

/-- The head of what `dropWhile` leaves never satisfies the predicate. -/
theorem dropWhile_head_false {p : Char → Bool} :
    ∀ {s : JStr} {c : Char}, (s.dropWhile p).head? = some c → p c = false := by
  intro s
  induction s with
  | nil => intro c h; simp [List.dropWhile] at h
  | cons a t ih =>
    intro c h
    by_cases ha : p a
    · rw [List.dropWhile_cons_of_pos ha] at h
      exact ih h
    · rw [List.dropWhile_cons_of_neg ha] at h
      simp at h
      rw [← h]
      exact Bool.eq_false_iff.mpr ha

/-- A list whose head fails the predicate is untouched by `dropWhile`. -/
theorem dropWhile_eq_self_of_head {p : Char → Bool} {l : JStr}
    (h : ∀ c, l.head? = some c → p c = false) : l.dropWhile p = l := by
  cases l with
  | nil => rfl
  | cons b r =>
    exact List.dropWhile_cons_of_neg (by rw [h b rfl]; exact Bool.false_ne_true)

/-- The first character of a trimmed string is never whitespace. -/
theorem jsTrim_head_not_ws {s : JStr} {c : Char}
    (h : (jsTrim s).head? = some c) : c.isWhitespace = false := by
  have hpre : jsTrim s <+: s.dropWhile Char.isWhitespace := by
    unfold jsTrim
    have hsuf : ((s.dropWhile Char.isWhitespace).reverse.dropWhile Char.isWhitespace) <:+
        (s.dropWhile Char.isWhitespace).reverse := List.dropWhile_suffix _
    have := List.reverse_prefix.mpr hsuf
    rwa [List.reverse_reverse] at this
  obtain ⟨t, ht⟩ := hpre
  apply dropWhile_head_false (s := s)
  rw [← ht, List.head?_append, h]
  rfl

/-- The last character of a trimmed string is never whitespace. -/
theorem jsTrim_getLast_not_ws {s : JStr} {c : Char}
    (h : (jsTrim s).getLast? = some c) : c.isWhitespace = false := by
  unfold jsTrim at h
  rw [List.getLast?_reverse] at h
  exact dropWhile_head_false h

/-- A string whose first and last characters are not whitespace is its
own trim. -/
theorem jsTrim_eq_self {s : JStr}
    (hh : ∀ c, s.head? = some c → c.isWhitespace = false)
    (hl : ∀ c, s.getLast? = some c → c.isWhitespace = false) :
    jsTrim s = s := by
  unfold jsTrim
  rw [dropWhile_eq_self_of_head hh]
  rw [dropWhile_eq_self_of_head (by
    intro c hc
    rw [List.head?_reverse] at hc
    exact hl c hc)]
  exact List.reverse_reverse s

/-- Gluing a trimmed-front string, a separator character and a
trimmed-back string yields a string that trimming leaves unchanged. -/
theorem jsTrim_glue {a : JStr} (c0 : Char) {r : JStr}
    (hane : a ≠ []) (hh : ∀ c, a.head? = some c → c.isWhitespace = false)
    (hrne : r ≠ []) (hl : ∀ c, r.getLast? = some c → c.isWhitespace = false) :
    jsTrim (a ++ c0 :: r) = a ++ c0 :: r := by
  apply jsTrim_eq_self
  · intro c hc
    cases a with
    | nil => exact absurd rfl hane
    | cons x xs =>
      rw [List.cons_append, List.head?_cons] at hc
      injection hc with hxc
      exact hh c (by rw [List.head?_cons, hxc])
  · intro c hc
    rw [List.getLast?_append_of_ne_nil a (by simp),
      show (c0 :: r) = [c0] ++ r from rfl,
      List.getLast?_append_of_ne_nil [c0] hrne] at hc
    exact hl c hc

/-- C6: a commit whose body spans several lines is never reformatted:
the message is the subject, a line break and the body verbatim (the
subject and body here being the trimmed, non-empty strings the block
parser produces). -/
theorem C6_multiline_body_untouched (subject body : JStr)
    (hs : jsTrim subject = subject) (hsne : subject ≠ [])
    (hb : jsTrim body = body)
    (hnl : jsIncludes ['\n'] body = true) :
    formatMessage subject body = subject ++ '\n' :: body := by
  have hbne : body ≠ [] := by
    intro h
    rw [h] at hnl
    exact absurd hnl (by decide)
  have hbe : body.isEmpty = false := List.isEmpty_eq_false.mpr hbne
  unfold formatMessage
  simp only [hbe, hnl, Bool.false_eq_true, if_false, if_true]
  apply jsTrim_glue '\n' hsne
  · intro c hc
    rw [← hs] at hc
    exact jsTrim_head_not_ws hc
  · exact hbne
  · intro c hc
    rw [← hb] at hc
    exact jsTrim_getLast_not_ws hc

/-- Witness for C6 at a concrete two-line body. -/
theorem C6_multiline_body_untouched_witness :
    jsTrim (("fix").toList) = ("fix").toList ∧
    (("fix").toList : JStr) ≠ [] ∧
    jsTrim (("line one\nline two").toList) = ("line one\nline two").toList ∧
    jsIncludes ['\n'] (("line one\nline two").toList) = true ∧
    formatMessage (("fix").toList) (("line one\nline two").toList) =
      ("fix").toList ++ '\n' :: ("line one\nline two").toList :=
  ⟨by decide, by decide, by decide, by decide,
    C6_multiline_body_untouched (("fix").toList) (("line one\nline two").toList)
      (by decide) (by decide) (by decide) (by decide)⟩

end DiffVisualizer

namespace DiffVisualizer

/-- A bulletised segment is non-empty and ends with the last character
of the trimmed segment. -/
theorem bulletize_getLast {p : JStr} (h : jsTrim p ≠ []) :
    bulletize p ≠ [] ∧ (bulletize p).getLast? = (jsTrim p).getLast? := by
  have hbdef : bulletize p =
      if isPre ['-'] (jsTrim p) = true then jsTrim p else '-' :: ' ' :: jsTrim p := rfl
  rw [hbdef]
  split
  · exact ⟨h, rfl⟩
  · refine ⟨by simp, ?_⟩
    rw [show ('-' :: ' ' :: jsTrim p) = ['-', ' '] ++ jsTrim p from rfl,
      List.getLast?_append_of_ne_nil ['-', ' '] h]

/-- The join of a list of strings whose last element is non-empty ends
with the last character of that last element. -/
theorem jsJoin_getLast (sep : JStr) :
    ∀ (ps : List JStr) (x : JStr), ps.getLast? = some x → x ≠ [] →
      (jsJoin sep ps).getLast? = x.getLast? := by
  intro ps
  induction ps with
  | nil => intro x hx; simp at hx
  | cons p rest ih =>
    intro x hx hxne
    cases rest with
    | nil =>
      rw [List.getLast?_singleton] at hx
      injection hx with hpx
      rw [hpx]
      rfl
    | cons q qs =>
      rw [List.getLast?_cons_cons] at hx
      have hj := ih x hx hxne
      have hjne : jsJoin sep (q :: qs) ≠ [] := by
        intro hnil
        obtain ⟨y, hy⟩ := Option.isSome_iff_exists.mp (List.getLast?_isSome.mpr hxne)
        rw [hnil] at hj
        rw [hy] at hj
        exact Option.noConfusion hj
      show (p ++ sep ++ jsJoin sep (q :: qs)).getLast? = x.getLast?
      rw [List.getLast?_append_of_ne_nil (p ++ sep) hjne]
      exact hj

/-- C1 (amended): for a commit with a trimmed, non-empty subject and a
trimmed, non-empty single-line body, when the body splits into more
than one non-blank segment and the list heuristic accepts them, the
message is the subject followed by EVERY segment (the first included)
bulletised on its own line; otherwise the message is subject, line
break and body verbatim. -/
theorem C1_singleline_body_formatting (subject body : JStr)
    (hs : jsTrim subject = subject) (hsne : subject ≠ [])
    (hb : jsTrim body = body) (hbne : body ≠ [])
    (hnl : jsIncludes ['\n'] body = false) :
    formatMessage subject body =
      (if decide (1 < (splitParts body).length) && shouldFormatAsList (splitParts body) then
        subject ++ '\n' :: jsJoin ['\n'] ((splitParts body).map bulletize)
      else subject ++ '\n' :: body) := by
  have hbe : body.isEmpty = false := List.isEmpty_eq_false.mpr hbne
  have hhead : ∀ c, subject.head? = some c → c.isWhitespace = false := by
    intro c hc
    rw [← hs] at hc
    exact jsTrim_head_not_ws hc
  unfold formatMessage
  simp only [hbe, hnl, Bool.false_eq_true, if_false]
  split
  · next hcond =>
    have hlen : 1 < (splitParts body).length := by
      have := (Bool.and_eq_true _ _).mp hcond
      exact of_decide_eq_true this.1
    have hne : splitParts body ≠ [] := by
      intro hnil
      rw [hnil] at hlen
      simp at hlen
    obtain ⟨p0, hp0⟩ := Option.isSome_iff_exists.mp (List.getLast?_isSome.mpr hne)
    have hp0mem : p0 ∈ splitParts body := List.mem_of_getLast?_eq_some hp0
    have hp0t : jsTrim p0 ≠ [] := by
      have := (List.mem_filter.mp hp0mem).2
      simp only [Bool.not_eq_true', List.isEmpty_eq_false] at this
      exact this
    have hbz := bulletize_getLast hp0t
    have hmap : ((splitParts body).map bulletize).getLast? = some (bulletize p0) := by
      rw [List.getLast?_map, hp0]
      rfl
    have hj := jsJoin_getLast ['\n'] ((splitParts body).map bulletize) (bulletize p0) hmap hbz.1
    have hjlast : (jsJoin ['\n'] ((splitParts body).map bulletize)).getLast? =
        (jsTrim p0).getLast? := by rw [hj, hbz.2]
    have hjne : jsJoin ['\n'] ((splitParts body).map bulletize) ≠ [] := by
      intro hnil
      obtain ⟨y, hy⟩ := Option.isSome_iff_exists.mp (List.getLast?_isSome.mpr hp0t)
      rw [hnil, hy] at hjlast
      exact Option.noConfusion hjlast
    apply jsTrim_glue '\n' hsne hhead hjne
    intro c hc
    rw [hjlast] at hc
    exact jsTrim_getLast_not_ws hc
  · apply jsTrim_glue '\n' hsne hhead hbne
    intro c hc
    rw [← hb] at hc
    exact jsTrim_getLast_not_ws hc

/-- Witness for C1 at a concrete commit whose single-line body passes
the heuristic. -/
theorem C1_singleline_body_formatting_witness :
    jsTrim (("Release notes").toList) = ("Release notes").toList ∧
    (("Release notes").toList : JStr) ≠ [] ∧
    jsTrim (("Improve parser performance across the board - Clean up the rename handling thoroughly").toList) =
      ("Improve parser performance across the board - Clean up the rename handling thoroughly").toList ∧
    (("Improve parser performance across the board - Clean up the rename handling thoroughly").toList : JStr) ≠ [] ∧
    jsIncludes ['\n'] (("Improve parser performance across the board - Clean up the rename handling thoroughly").toList) = false ∧
    formatMessage (("Release notes").toList)
        (("Improve parser performance across the board - Clean up the rename handling thoroughly").toList) =
      (if decide (1 < (splitParts (("Improve parser performance across the board - Clean up the rename handling thoroughly").toList)).length) &&
          shouldFormatAsList (splitParts (("Improve parser performance across the board - Clean up the rename handling thoroughly").toList)) then
        ("Release notes").toList ++ '\n' ::
          jsJoin ['\n'] ((splitParts (("Improve parser performance across the board - Clean up the rename handling thoroughly").toList)).map bulletize)
      else ("Release notes").toList ++ '\n' ::
        ("Improve parser performance across the board - Clean up the rename handling thoroughly").toList) :=
  ⟨by decide, by decide, by decide, by decide, by decide,
    C1_singleline_body_formatting (("Release notes").toList)
      (("Improve parser performance across the board - Clean up the rename handling thoroughly").toList)
      (by decide) (by decide) (by decide) (by decide) (by decide)⟩

end DiffVisualizer

namespace DiffVisualizer

/-- Unfolding equation of `jsIncludes` at a cons cell. -/
theorem jsIncludes_cons (pat : JStr) (c : Char) (cs : JStr) :
    jsIncludes pat (c :: cs) = (isPre pat (c :: cs) || jsIncludes pat cs) := rfl

/-- Every string is a prefix of itself extended on the right. -/
theorem isPre_append_self : ∀ (p t : JStr), isPre p (p ++ t) = true
  | [], _ => rfl
  | a :: as, t => by
    rw [List.cons_append,
      show isPre (a :: as) (a :: (as ++ t)) = if a = a then isPre as (as ++ t) else false from rfl,
      if_pos rfl]
    exact isPre_append_self as t

/-- A string with a given prefix contains it as a substring. -/
theorem jsIncludes_of_isPre (p : JStr) : ∀ (s : JStr), isPre p s = true → jsIncludes p s = true := by
  intro s hp
  cases s with
  | nil =>
    cases p with
    | nil => rfl
    | cons a as =>
      rw [show isPre (a :: as) ([] : JStr) = false from rfl] at hp
      exact absurd hp Bool.false_ne_true
  | cons c cs => rw [jsIncludes_cons, hp, Bool.true_or]

/-- A string of the shape `a ++ p ++ b` contains `p`. -/
theorem jsIncludes_sandwich (p : JStr) : ∀ (a b : JStr), jsIncludes p (a ++ (p ++ b)) = true := by
  intro a
  induction a with
  | nil =>
    intro b
    rw [List.nil_append]
    exact jsIncludes_of_isPre p _ (isPre_append_self p b)
  | cons x xs ih =>
    intro b
    rw [List.cons_append, jsIncludes_cons, ih b, Bool.or_true]

/-- Unfolding equation of `splitSt` at a cons cell with no pending
separator characters. -/
theorem splitSt_cons_zero (sep : JStr) (c : Char) (cs acc : JStr) :
    splitSt sep (c :: cs) 0 acc =
      if isPre sep (c :: cs) then acc.reverse :: splitSt sep cs (sep.length - 1) []
      else splitSt sep cs 0 (c :: acc) := rfl

/-- `splitSt` never returns the empty list. -/
theorem splitSt_ne_nil (sep : JStr) : ∀ (s : JStr) (k : Nat) (acc : JStr),
    splitSt sep s k acc ≠ [] := by
  intro s
  induction s with
  | nil => intro k acc; simp [splitSt]
  | cons c cs ih =>
    intro k acc
    cases k with
    | succ m => exact ih m acc
    | zero =>
      rw [splitSt_cons_zero]
      split
      · exact List.cons_ne_nil _ _
      · exact ih 0 (c :: acc)

/-- `jsSplit` never returns the empty list. -/
theorem jsSplit_ne_nil (sep s : JStr) : jsSplit sep s ≠ [] := by
  cases sep with
  | nil => exact List.cons_ne_nil _ _
  | cons a as => exact splitSt_ne_nil (a :: as) s 0 []

/-- Splitting on a single character absent from the string yields the
string as the only piece. -/
theorem splitSt_char_none (c : Char) : ∀ (a acc : JStr), c ∉ a →
    splitSt [c] a 0 acc = [acc.reverse ++ a] := by
  intro a
  induction a with
  | nil => intro acc _; simp [splitSt]
  | cons x xs ih =>
    intro acc h
    have hne : c ≠ x := fun hcx => h (hcx ▸ List.mem_cons_self x xs)
    have hxs : c ∉ xs := fun hcxs => h (List.mem_cons_of_mem x hcxs)
    rw [splitSt_cons_zero,
      show isPre [c] (x :: xs) = if c = x then true else false from rfl,
      if_neg hne]
    simp only [Bool.false_eq_true, if_false]
    rw [ih (x :: acc) hxs]
    simp [List.append_assoc]

/-- Splitting on a single character finds its first occurrence: the
text before it becomes a piece and splitting continues after it. -/
theorem splitSt_char_hit (c : Char) (b : JStr) : ∀ (a acc : JStr), c ∉ a →
    splitSt [c] (a ++ c :: b) 0 acc = (acc.reverse ++ a) :: splitSt [c] b 0 [] := by
  intro a
  induction a with
  | nil =>
    intro acc _
    rw [List.nil_append, splitSt_cons_zero,
      show isPre [c] (c :: b) = if c = c then true else false from rfl,
      if_pos rfl]
    simp
  | cons x xs ih =>
    intro acc h
    have hne : c ≠ x := fun hcx => h (hcx ▸ List.mem_cons_self x xs)
    have hxs : c ∉ xs := fun hcxs => h (List.mem_cons_of_mem x hcxs)
    rw [List.cons_append, splitSt_cons_zero,
      show isPre [c] (x :: (xs ++ c :: b)) = if c = x then true else false from rfl,
      if_neg hne]
    simp only [Bool.false_eq_true, if_false]
    rw [ih (x :: acc) hxs]
    simp [List.append_assoc]

/-- Single-character split of `a ++ c :: b` with `c` absent from `a`. -/
theorem jsSplit_char_break (c : Char) (a b : JStr) (h : c ∉ a) :
    jsSplit [c] (a ++ c :: b) = a :: jsSplit [c] b := by
  show splitSt [c] (a ++ c :: b) 0 [] = a :: splitSt [c] b 0 []
  rw [splitSt_char_hit c b a [] h]
  simp

/-- Single-character split of a string not containing the character. -/
theorem jsSplit_char_none (c : Char) (a : JStr) (h : c ∉ a) : jsSplit [c] a = [a] := by
  show splitSt [c] a 0 [] = [a]
  rw [splitSt_char_none c a [] h]
  simp

/-- Unfolding equation of `afterLastSub` at a cons cell. -/
theorem afterLastSub_cons (pat : JStr) (c : Char) (cs : JStr) :
    afterLastSub pat (c :: cs) =
      match afterLastSub pat cs with
      | some r => some r
      | none => if isPre pat (c :: cs) then some ((c :: cs).drop pat.length) else none := rfl

/-- A string not containing the pattern has no last occurrence of it. -/
theorem afterLastSub_none (pat : JStr) : ∀ (s : JStr), jsIncludes pat s = false →
    afterLastSub pat s = none := by
  intro s
  induction s with
  | nil => intro _; rfl
  | cons c cs ih =>
    intro h
    rw [jsIncludes_cons] at h
    have hor := Bool.or_eq_false_iff.mp h
    rw [afterLastSub_cons, ih hor.2]
    simp only [hor.1, Bool.false_eq_true, if_false]

/-- In `old ++ " => " ++ nw` with `nw` free of the arrow and not
starting with `=> `, the last arrow occurrence is the explicit one, so
the text after it is exactly `nw`. -/
theorem afterLastSub_arrow (nw : JStr) (h1 : jsIncludes arrowToken nw = false)
    (h2 : isPre ['=', '>', ' '] nw = false) :
    ∀ (old : JStr), afterLastSub arrowToken (old ++ arrowToken ++ nw) = some nw := by
  intro old
  induction old with
  | nil =>
    have e0 : afterLastSub arrowToken nw = none := afterLastSub_none arrowToken nw h1
    have e1 : afterLastSub arrowToken (' ' :: nw) = none := by
      rw [afterLastSub_cons, e0]
      rw [show isPre arrowToken (' ' :: nw) = isPre ['=', '>', ' '] nw from rfl, h2]
      simp
    have e2 : afterLastSub arrowToken ('>' :: ' ' :: nw) = none := by
      rw [afterLastSub_cons, e1]
      rw [show isPre arrowToken ('>' :: ' ' :: nw) = false from rfl]
      simp
    have e3 : afterLastSub arrowToken ('=' :: '>' :: ' ' :: nw) = none := by
      rw [afterLastSub_cons, e2]
      rw [show isPre arrowToken ('=' :: '>' :: ' ' :: nw) = false from rfl]
      simp
    rw [show ([] : JStr) ++ arrowToken ++ nw = ' ' :: '=' :: '>' :: ' ' :: nw from rfl]
    rw [afterLastSub_cons, e3]
    rw [show (' ' :: '=' :: '>' :: ' ' :: nw) = arrowToken ++ nw from rfl,
      isPre_append_self arrowToken nw]
    simp only [if_true]
    rw [List.drop_left' rfl]
  | cons c0 old' ih =>
    rw [show (c0 :: old') ++ arrowToken ++ nw = c0 :: (old' ++ arrowToken ++ nw) by
      simp [List.cons_append]]
    rw [afterLastSub_cons, ih]

/-- Unfolding equation of `braceArrowSplit` at a cons cell. -/
theorem braceArrowSplit_cons (c : Char) (cs : JStr) :
    braceArrowSplit (c :: cs) =
      (if c = '\x7b' ∧ jsIncludes arrowToken cs = true then some ([], cs)
       else match braceArrowSplit cs with
         | some (pre, rest) => some (c :: pre, rest)
         | none => none) := rfl

/-- A piece of the shape `pre ++ '\x7b' :: R` with no brace in `pre` and
an arrow inside `R` splits at exactly that brace. -/
theorem braceArrowSplit_found : ∀ (pre R : JStr), '\x7b' ∉ pre →
    jsIncludes arrowToken R = true → braceArrowSplit (pre ++ '\x7b' :: R) = some (pre, R) := by
  intro pre
  induction pre with
  | nil =>
    intro R _ hR
    rw [List.nil_append, braceArrowSplit_cons, if_pos ⟨rfl, hR⟩]
  | cons x xs ih =>
    intro R h hR
    have hne : x ≠ '\x7b' := fun hx => h (hx ▸ List.mem_cons_self x xs)
    have hxs : '\x7b' ∉ xs := fun hm => h (List.mem_cons_of_mem x hm)
    rw [List.cons_append, braceArrowSplit_cons, if_neg (fun hand => hne hand.1),
      ih R hxs hR]

end DiffVisualizer

namespace DiffVisualizer

/-- Unfolding equation of `joinPieces` at a cons cell. -/
theorem joinPieces_cons (p q : JStr) (qs : List JStr) :
    joinPieces p (q :: qs) =
      (match braceArrowSplit p with
       | some (pr, rest) => pr ++ afterLastArrow rest
       | none => p ++ ['\x7d']) ++ joinPieces q qs := rfl

/-- Unfolding equation of `parseRenamedPath`. -/
theorem parseRenamedPath_eq (fp : JStr) :
    parseRenamedPath fp =
      (match jsSplit ['\x7d'] fp with
       | [] => fp
       | p :: ps => joinPieces p ps) := rfl

/-- C3: a diff entry whose raw path contains rename notation — a
bracketed segment `old => new` (no closing brace before it or inside
it, and `new` free of further arrows) — is classified renamed no matter
what its insertion and deletion counts are, and its path is rewritten
with the bracketed segment replaced by the post-arrow part alone, the
remainder of the path being rewritten the same way.  Rename detection
runs before the insertion/deletion heuristics. -/
theorem C3_rename_detection_precedence (e : RawDiffEntry) (pre old nw post : JStr)
    (hfp : e.file = pre ++ '\x7b' :: (old ++ arrowToken ++ nw) ++ '\x7d' :: post)
    (hpreL : '\x7b' ∉ pre) (hpreR : '\x7d' ∉ pre)
    (holdR : '\x7d' ∉ old) (hnwR : '\x7d' ∉ nw)
    (hnwA : jsIncludes arrowToken nw = false)
    (hnwP : isPre ['=', '>', ' '] nw = false) :
    (classifyFile e).status = FileStatus.renamed ∧
    (classifyFile e).path = pre ++ nw ++ parseRenamedPath post := by
  have harrNoBrace : '\x7d' ∉ arrowToken := by decide
  have hA : '\x7d' ∉ pre ++ '\x7b' :: (old ++ arrowToken ++ nw) := by
    intro hmem
    rcases List.mem_append.mp hmem with h | h
    · exact hpreR h
    · rcases List.mem_cons.mp h with h | h
      · exact absurd h (by decide)
      · rcases List.mem_append.mp h with h | h
        · rcases List.mem_append.mp h with h | h
          · exact holdR h
          · exact harrNoBrace h
        · exact hnwR h
  have hArr : jsIncludes arrowToken (old ++ arrowToken ++ nw) = true := by
    rw [List.append_assoc]
    exact jsIncludes_sandwich arrowToken old nw
  have hshape1 : e.file = pre ++ (['\x7b'] ++ ((old ++ arrowToken ++ nw) ++ '\x7d' :: post)) := by
    rw [hfp]
    simp [List.cons_append, List.append_assoc]
  have g1 : jsIncludes ['\x7b'] e.file = true := by
    rw [hshape1]
    exact jsIncludes_sandwich ['\x7b'] pre ((old ++ arrowToken ++ nw) ++ '\x7d' :: post)
  have hshape2 : e.file = (pre ++ '\x7b' :: old) ++ (arrowToken ++ (nw ++ '\x7d' :: post)) := by
    rw [hfp]
    simp [List.cons_append, List.append_assoc]
  have g2 : jsIncludes arrowToken e.file = true := by
    rw [hshape2]
    exact jsIncludes_sandwich arrowToken _ _
  have g3 : jsIncludes ['\x7d'] e.file = true := by
    rw [hfp]
    exact jsIncludes_sandwich ['\x7d'] (pre ++ '\x7b' :: (old ++ arrowToken ++ nw)) post
  have isRen : isRenamedPath e.file = true := by
    unfold isRenamedPath
    rw [g1, g2, g3]
    rfl
  have hsplit : jsSplit ['\x7d'] e.file =
      (pre ++ '\x7b' :: (old ++ arrowToken ++ nw)) :: jsSplit ['\x7d'] post := by
    rw [hfp]
    exact jsSplit_char_break '\x7d' _ post hA
  have hbrace : braceArrowSplit (pre ++ '\x7b' :: (old ++ arrowToken ++ nw)) =
      some (pre, old ++ arrowToken ++ nw) :=
    braceArrowSplit_found pre _ hpreL hArr
  have hafter : afterLastArrow (old ++ arrowToken ++ nw) = nw := by
    unfold afterLastArrow
    rw [afterLastSub_arrow nw hnwA hnwP old]
    rfl
  have hpath : parseRenamedPath e.file = pre ++ nw ++ parseRenamedPath post := by
    rw [parseRenamedPath_eq e.file, hsplit]
    show joinPieces (pre ++ '\x7b' :: (old ++ arrowToken ++ nw)) (jsSplit ['\x7d'] post) =
      pre ++ nw ++ parseRenamedPath post
    cases hps : jsSplit ['\x7d'] post with
    | nil => exact absurd hps (jsSplit_ne_nil _ _)
    | cons q qs =>
      rw [joinPieces_cons, hbrace]
      show (pre ++ afterLastArrow (old ++ arrowToken ++ nw)) ++ joinPieces q qs =
        pre ++ nw ++ parseRenamedPath post
      rw [hafter, parseRenamedPath_eq post, hps]
  constructor
  · unfold classifyFile
    rw [isRen]
    rfl
  · unfold classifyFile
    rw [isRen]
    show parseRenamedPath e.file = pre ++ nw ++ parseRenamedPath post
    exact hpath

/-- Witness for C3 at the concrete renamed path
`src/\x7bold => new\x7d/main.ts` with three insertions and one
deletion. -/
theorem C3_rename_detection_precedence_witness :
    (⟨("src/\x7bold => new\x7d/main.ts").toList, some 3, some 1⟩ : RawDiffEntry).file =
      ("src/").toList ++ '\x7b' ::
        (("old").toList ++ arrowToken ++ ("new").toList) ++ '\x7d' :: ("/main.ts").toList ∧
    '\x7b' ∉ ("src/").toList ∧ '\x7d' ∉ ("src/").toList ∧
    '\x7d' ∉ ("old").toList ∧ '\x7d' ∉ ("new").toList ∧
    jsIncludes arrowToken (("new").toList) = false ∧
    isPre ['=', '>', ' '] (("new").toList) = false ∧
    ((classifyFile ⟨("src/\x7bold => new\x7d/main.ts").toList, some 3, some 1⟩).status =
        FileStatus.renamed ∧
     (classifyFile ⟨("src/\x7bold => new\x7d/main.ts").toList, some 3, some 1⟩).path =
        ("src/").toList ++ ("new").toList ++ parseRenamedPath (("/main.ts").toList)) :=
  ⟨by decide, by decide, by decide, by decide, by decide, by decide, by decide,
    C3_rename_detection_precedence ⟨("src/\x7bold => new\x7d/main.ts").toList, some 3, some 1⟩
      (("src/").toList) (("old").toList) (("new").toList) (("/main.ts").toList)
      (by decide) (by decide) (by decide) (by decide) (by decide) (by decide) (by decide)⟩

end DiffVisualizer

namespace DiffVisualizer

/-- Unfolding equation of `lexLE` at two cons cells. -/
theorem lexLE_cons (x y : Char) (xs ys : JStr) :
    lexLE (x :: xs) (y :: ys) = if x = y then lexLE xs ys else decide (x < y) := rfl

/-- Code-point order is total. -/
theorem lexLE_total : ∀ (a b : JStr), lexLE a b = true ∨ lexLE b a = true := by
  intro a
  induction a with
  | nil => intro b; left; rfl
  | cons x xs ih =>
    intro b
    cases b with
    | nil => right; rfl
    | cons y ys =>
      rw [lexLE_cons, lexLE_cons]
      by_cases hxy : x = y
      · rw [if_pos hxy, if_pos hxy.symm]
        subst hxy
        exact ih ys
      · rw [if_neg hxy, if_neg (fun h => hxy h.symm)]
        rcases lt_or_gt_of_ne hxy with h | h
        · left; exact decide_eq_true h
        · right; exact decide_eq_true h

/-- Code-point order is transitive. -/
theorem lexLE_trans : ∀ (a b c : JStr), lexLE a b = true → lexLE b c = true →
    lexLE a c = true := by
  intro a
  induction a with
  | nil => intro b c _ _; rfl
  | cons x xs ih =>
    intro b c hab hbc
    cases b with
    | nil =>
      rw [show lexLE (x :: xs) [] = false from rfl] at hab
      exact absurd hab Bool.false_ne_true
    | cons y ys =>
      cases c with
      | nil =>
        rw [show lexLE (y :: ys) [] = false from rfl] at hbc
        exact absurd hbc Bool.false_ne_true
      | cons z zs =>
        rw [lexLE_cons] at hab hbc ⊢
        by_cases hxy : x = y
        · subst hxy
          rw [if_pos rfl] at hab
          by_cases hxz : x = z
          · subst hxz
            rw [if_pos rfl] at hbc ⊢
            exact ih ys zs hab hbc
          · rw [if_neg hxz] at hbc ⊢
            exact hbc
        · rw [if_neg hxy] at hab
          have hlt : x < y := of_decide_eq_true hab
          by_cases hyz : y = z
          · subst hyz
            rw [if_neg hxy]
            exact hab
          · rw [if_neg hyz] at hbc
            have hlt2 : y < z := of_decide_eq_true hbc
            have hxltz : x < z := lt_trans hlt hlt2
            rw [if_neg (ne_of_lt hxltz)]
            exact decide_eq_true hxltz

/-- The folders-first comparator is total. -/
theorem nodeLE_lex_total (a b : JStr × TreeNode) :
    nodeLE lexLE a b = true ∨ nodeLE lexLE b a = true := by
  unfold nodeLE
  rcases Bool.eq_false_or_eq_true (isFolderNode a.2) with hfa | hfa <;>
    rcases Bool.eq_false_or_eq_true (isFolderNode b.2) with hfb | hfb <;>
    simp [hfa, hfb]
  · exact lexLE_total a.1 b.1
  · exact lexLE_total a.1 b.1

/-- The folders-first comparator is transitive. -/
theorem nodeLE_lex_trans (a b c : JStr × TreeNode)
    (hab : nodeLE lexLE a b = true) (hbc : nodeLE lexLE b c = true) :
    nodeLE lexLE a c = true := by
  unfold nodeLE at hab hbc ⊢
  rcases Bool.eq_false_or_eq_true (isFolderNode a.2) with hfa | hfa <;>
    rcases Bool.eq_false_or_eq_true (isFolderNode b.2) with hfb | hfb <;>
    rcases Bool.eq_false_or_eq_true (isFolderNode c.2) with hfc | hfc <;>
    simp [hfa, hfb, hfc] at hab hbc ⊢ <;>
    exact lexLE_trans a.1 b.1 c.1 hab hbc

/-- Elements of `insertLE` come from the inserted element or the list. -/
theorem mem_insertLE {α : Type} (le : α → α → Bool) (x : α) :
    ∀ (l : List α) (z : α), z ∈ insertLE le x l → z = x ∨ z ∈ l := by
  intro l
  induction l with
  | nil =>
    intro z hz
    simp [insertLE] at hz
    exact Or.inl hz
  | cons y ys ih =>
    intro z hz
    rw [show insertLE le x (y :: ys) =
      if le x y then x :: y :: ys else y :: insertLE le x ys from rfl] at hz
    by_cases h : le x y = true
    · rw [if_pos h] at hz
      rcases List.mem_cons.mp hz with h1 | h1
      · exact Or.inl h1
      · exact Or.inr h1
    · rw [if_neg h] at hz
      rcases List.mem_cons.mp hz with h1 | h1
      · exact Or.inr (by rw [h1]; exact List.mem_cons_self y ys)
      · rcases ih z h1 with h2 | h2
        · exact Or.inl h2
        · exact Or.inr (List.mem_cons_of_mem y h2)

/-- Insertion by a total transitive comparator preserves sortedness. -/
theorem pairwise_insertLE {α : Type} (le : α → α → Bool)
    (htot : ∀ a b, le a b = true ∨ le b a = true)
    (htr : ∀ a b c, le a b = true → le b c = true → le a c = true)
    (x : α) : ∀ (l : List α), List.Pairwise (fun a b => le a b = true) l →
      List.Pairwise (fun a b => le a b = true) (insertLE le x l) := by
  intro l
  induction l with
  | nil => intro _; exact List.pairwise_singleton _ x
  | cons y ys ih =>
    intro hp
    obtain ⟨hy, hys⟩ := List.pairwise_cons.mp hp
    rw [show insertLE le x (y :: ys) =
      if le x y then x :: y :: ys else y :: insertLE le x ys from rfl]
    by_cases h : le x y = true
    · rw [if_pos h]
      apply List.pairwise_cons.mpr
      refine ⟨?_, hp⟩
      intro z hz
      rcases List.mem_cons.mp hz with h1 | h1
      · rw [h1]; exact h
      · exact htr x y z h (hy z h1)
    · rw [if_neg h]
      have hyx : le y x = true := (htot x y).resolve_left h
      apply List.pairwise_cons.mpr
      refine ⟨?_, ih hys⟩
      intro z hz
      rcases mem_insertLE le x (ys) z hz with h1 | h1
      · rw [h1]; exact hyx
      · exact hy z h1

/-- Insertion sort by a total transitive comparator sorts. -/
theorem pairwise_sortByLE {α : Type} (le : α → α → Bool)
    (htot : ∀ a b, le a b = true ∨ le b a = true)
    (htr : ∀ a b c, le a b = true → le b c = true → le a c = true) :
    ∀ (l : List α), List.Pairwise (fun a b => le a b = true) (sortByLE le l) := by
  intro l
  induction l with
  | nil => exact List.Pairwise.nil
  | cons x xs ih => exact pairwise_insertLE le htot htr x (sortByLE le xs) ih

/-- C8: building the tree from the example paths and rendering it in
sorted order yields folder `a` (containing folder `c` with file `d.txt`,
then file `b.txt`) followed by top-level file `e.txt`; and at every
level the rendered children are ordered by the folders-first,
name-lexicographic comparator. -/
theorem C8_tree_build_and_order :
    renderedTree lexLE
        [⟨("a/b.txt").toList, 1, 0, FileStatus.modified⟩,
         ⟨("a/c/d.txt").toList, 2, 0, FileStatus.added⟩,
         ⟨("e.txt").toList, 0, 1, FileStatus.deleted⟩] =
      TreeNode.folder
        [(("a").toList, TreeNode.folder
            [(("c").toList, TreeNode.folder
                [(("d.txt").toList,
                  TreeNode.file ⟨("a/c/d.txt").toList, 2, 0, FileStatus.added⟩)]),
             (("b.txt").toList,
              TreeNode.file ⟨("a/b.txt").toList, 1, 0, FileStatus.modified⟩)]),
         (("e.txt").toList,
          TreeNode.file ⟨("e.txt").toList, 0, 1, FileStatus.deleted⟩)] ∧
    ∀ cs : List (JStr × TreeNode),
      List.Pairwise (fun a b => nodeLE lexLE a b = true) (sortByLE (nodeLE lexLE) cs) :=
  ⟨rfl, fun cs => pairwise_sortByLE (nodeLE lexLE) nodeLE_lex_total nodeLE_lex_trans cs⟩

end DiffVisualizer
